import Mathlib

/-!
# Verification of the abnormal-file-hub deduplication core

A shallow embedding of the content-addressable deduplication store of the
repository (backend/files/services/deduplication.py and
backend/contracts/models.py), together with proofs of the specification
claims about it.

Modelling conventions:
* File content is a list of bytes (`List Nat`).
* The SHA-256 hex digest (`hashlib.sha256(...).hexdigest()`, an external
  library call) is an abstract parameter `H : Content → String`; the chunked
  64 KiB reading loop of `compute_hash` only bounds memory and does not
  change the digest, so `compute_hash file_obj` is embedded as `H c`.
* The database tables `FileContent` and `File` are lists of records; a
  Django `QuerySet.filter(...).first()` is `List.find?`, `.filter` is
  `List.filter`, a row save is a pointwise list update.  Python integers
  are `Int` (so that a negative refcount is representable), sizes are `Nat`.
* `transaction.atomic()` makes each service call one atomic step of the
  sequential state machine; the interleaved refcount model further below
  exposes the individual read/write statements for the concurrency claim.
* Physical blob storage is an association list from storage path to bytes.
* UUIDs and timestamps: fresh ids come from a counter `nextId`, the
  `auto_now_add` timestamps from a logical clock.
-/

namespace FileHub

/-- Raw file content: a sequence of bytes. -/
abbrev Content := List Nat

/-- The `contracts.models.FileContent` row: unique physical content.
`hash` is the primary key, `file_path` the value of the `FileField`
(the CAS storage path), `reference_count` the `PositiveIntegerField`
kept as `Int` because the Python attribute is a plain integer. -/
structure ContentRec where
  hash : String
  file_path : String
  size : Nat
  reference_count : Int
  created_at : Nat
deriving Repr, DecidableEq

/-- The `contracts.models.File` row: user-visible file metadata, referencing a
`FileContent` row through the foreign key `contentHash` (the referenced
primary key). -/
structure FileRec where
  id : Nat
  original_filename : String
  file_type : String
  uploaded_at : Nat
  contentHash : String
deriving Repr, DecidableEq

/-- The whole persistent state: both database tables, the physical blob
store (path ↦ bytes), plus the id counter and logical clock. -/
structure Store where
  files : List FileRec
  contents : List ContentRec
  blobs : List (String × Content)
  nextId : Nat
  clock : Nat
deriving Repr, DecidableEq

/-- The initial, empty store. -/
def emptyStore : Store := ⟨[], [], [], 0, 0⟩

/-- Last dot-separated segment of a filename: embeds both
`original_filename.rsplit('.', 1)[-1]` (deduplication.py line 98) and
`filename.split('.')[-1]` (models.py line 22); both pick the substring
after the last dot, computed here as the longest dot-free suffix. -/
def lastDotSegment (filename : String) : String :=
  ((filename.toList.reverse.takeWhile (fun ch => ch ≠ '.')).reverse).asString

/-- Embeds `ext = original_filename.rsplit('.', 1)[-1] if '.' in original_filename else ''`
(deduplication.py line 98 and models.py line 22). -/
def fileExt (filename : String) : String :=
  if filename.toList.contains '.' then lastDotSegment filename else ""

/-- Python string slice `s[a:b]`. -/
def strSlice (s : String) (a b : Nat) : String :=
  (((s.toList).drop a).take (b - a)).asString

/-- Embeds `contracts.models.content_addressable_path`: storage path
`cas/{hash[0:2]}/{hash[2:4]}/{hash}.{ext}` (extension dropped when the
filename has none). -/
def content_addressable_path (hash_value : String) (filename : String) : String :=
  let ext := fileExt filename
  if ext == "" then
    "cas/" ++ strSlice hash_value 0 2 ++ "/" ++ strSlice hash_value 2 4 ++ "/" ++ hash_value
  else
    "cas/" ++ strSlice hash_value 0 2 ++ "/" ++ strSlice hash_value 2 4 ++ "/"
      ++ hash_value ++ "." ++ ext

/-- Embeds `DeduplicationService.upload_file` (deduplication.py lines 54-121).
`H` is the abstract SHA-256 hex digest.  Returns the pair
`(File record, is duplicate)` produced by the source, together with the
updated store.  The dead `potential_matches` queryset of line 70 is kept
as an (unused) computation. -/
def uploadFile (H : Content → String) (file_obj : Content)
    (original_filename file_type : String) (s : Store) :
    (FileRec × Bool) × Store :=
  let file_size := file_obj.length
  let _potential_matches := s.contents.filter (fun fc => fc.size == file_size)
  let content_hash := H file_obj
  match s.contents.find? (fun fc => fc.hash == content_hash) with
  | some existing =>
      -- duplicate detected: increment reference count and save that field
      let existing2 : ContentRec :=
        { existing with reference_count := existing.reference_count + 1 }
      let contents2 :=
        s.contents.map (fun fc => if fc.hash == content_hash then existing2 else fc)
      let file_record : FileRec :=
        { id := s.nextId, original_filename := original_filename,
          file_type := file_type, uploaded_at := s.clock,
          contentHash := content_hash }
      ((file_record, true),
        { s with contents := contents2, files := file_record :: s.files,
                 nextId := s.nextId + 1, clock := s.clock + 1 })
  | none =>
      -- new content: store bytes at the CAS path, create FileContent
      let ext := fileExt original_filename
      let storage_filename :=
        if ext == "" then content_hash else content_hash ++ "." ++ ext
      let path := content_addressable_path content_hash storage_filename
      let file_content : ContentRec :=
        { hash := content_hash, file_path := path, size := file_size,
          reference_count := 1, created_at := s.clock }
      let file_record : FileRec :=
        { id := s.nextId, original_filename := original_filename,
          file_type := file_type, uploaded_at := s.clock,
          contentHash := content_hash }
      ((file_record, false),
        { s with contents := file_content :: s.contents,
                 blobs := (path, file_obj) :: s.blobs,
                 files := file_record :: s.files,
                 nextId := s.nextId + 1, clock := s.clock + 1 })

/-- Variant of `upload_file` with the size pre-filter of deduplication.py line 70
removed, everything else verbatim — the spec's description of the upload
algorithm without the "size-first" optimization, used for the
refinement claim. -/
def uploadFileNoSizeFilter (H : Content → String) (file_obj : Content)
    (original_filename file_type : String) (s : Store) :
    (FileRec × Bool) × Store :=
  let file_size := file_obj.length
  let content_hash := H file_obj
  match s.contents.find? (fun fc => fc.hash == content_hash) with
  | some existing =>
      let existing2 : ContentRec :=
        { existing with reference_count := existing.reference_count + 1 }
      let contents2 :=
        s.contents.map (fun fc => if fc.hash == content_hash then existing2 else fc)
      let file_record : FileRec :=
        { id := s.nextId, original_filename := original_filename,
          file_type := file_type, uploaded_at := s.clock,
          contentHash := content_hash }
      ((file_record, true),
        { s with contents := contents2, files := file_record :: s.files,
                 nextId := s.nextId + 1, clock := s.clock + 1 })
  | none =>
      let ext := fileExt original_filename
      let storage_filename :=
        if ext == "" then content_hash else content_hash ++ "." ++ ext
      let path := content_addressable_path content_hash storage_filename
      let file_content : ContentRec :=
        { hash := content_hash, file_path := path, size := file_size,
          reference_count := 1, created_at := s.clock }
      let file_record : FileRec :=
        { id := s.nextId, original_filename := original_filename,
          file_type := file_type, uploaded_at := s.clock,
          contentHash := content_hash }
      ((file_record, false),
        { s with contents := file_content :: s.contents,
                 blobs := (path, file_obj) :: s.blobs,
                 files := file_record :: s.files,
                 nextId := s.nextId + 1, clock := s.clock + 1 })

/-- Embeds `DeduplicationService.delete_file` (deduplication.py lines 154-200),
identified by the file id.  Returns `some physical_deleted` on success;
`none` models the impossible states (no such File row, or a dangling
foreign key, which `on_delete=PROTECT` rules out).  The directory
cleanup of line 189 acts on the filesystem model and is embedded
separately as `cleanupEmptyDirectories`. -/
def deleteFile (fid : Nat) (s : Store) : Option Bool × Store :=
  match s.files.find? (fun f => f.id == fid) with
  | none => (none, s)
  | some file_record =>
    match s.contents.find? (fun fc => fc.hash == file_record.contentHash) with
    | none => (none, s)
    | some content =>
      -- delete the File metadata row
      let files2 := s.files.filter (fun f => !(f.id == fid))
      -- refresh from db, then decrement the reference count
      let rc2 := content.reference_count - 1
      if rc2 = 0 then
        -- last reference: delete physical bytes and the FileContent row
        (some true,
          { s with files := files2,
                   contents := s.contents.filter (fun fc => !(fc.hash == content.hash)),
                   blobs := s.blobs.filter (fun b => !(b.1 == content.file_path)) })
      else
        -- other references remain: persist the decremented count
        (some false,
          { s with files := files2,
                   contents := s.contents.map (fun fc =>
                     if fc.hash == content.hash then
                       { fc with reference_count := rc2 } else fc) })

/-- Result record of `get_storage_metrics` (deduplication.py lines 203-244).
The ratio is kept as an exact rational. -/
structure StorageMetrics where
  total_files : Nat
  unique_contents : Nat
  logical_size : Int
  physical_size : Nat
  storage_saved : Int
  deduplication_ratio : ℚ
deriving Repr, DecidableEq

/-- Embeds `DeduplicationService.get_storage_metrics` (deduplication.py lines
203-244): `Count('hash')` and `Sum('size')` aggregates (with the
`or 0` defaults), the `logical_size` accumulation loop, and the ratio
with its empty-store default of `1.0`. -/
def get_storage_metrics (s : Store) : StorageMetrics :=
  let unique_contents := s.contents.length
  let physical_size := (s.contents.map (fun fc => fc.size)).sum
  let logical_size :=
    s.contents.foldl (fun acc fc => acc + (fc.size : Int) * fc.reference_count) 0
  let total_files := s.files.length
  let storage_saved := logical_size - (physical_size : Int)
  let deduplication_ratio : ℚ :=
    if 0 < total_files then (unique_contents : ℚ) / (total_files : ℚ) else 1
  { total_files := total_files, unique_contents := unique_contents,
    logical_size := logical_size, physical_size := physical_size,
    storage_saved := storage_saved, deduplication_ratio := deduplication_ratio }

/-- Iterated upload of one fixed content under a list of
`(original_filename, file_type)` pairs, collecting the `is_duplicate`
flags: the "upload identical content N times" scenario of the spec. -/
def uploadN (H : Content → String) (c : Content)
    (metas : List (String × String)) (s : Store) : List Bool × Store :=
  match metas with
  | [] => ([], s)
  | (fn, ft) :: rest =>
      let r := uploadFile H c fn ft s
      let rec2 := uploadN H c rest r.2
      (r.1.2 :: rec2.1, rec2.2)

/-- A Django `UploadedFile` as the view sees it: a name, a declared
content type (`None` possible) and the byte stream. -/
structure UploadedFile where
  name : String
  content_type : Option String
  bytes : Content
deriving Repr, DecidableEq

/-- Django `File.__bool__` is `bool(self.name)`: the `if not file_obj`
check of views.py line 78 tests the *name*, not the content. -/
def UploadedFile.isTruthy (f : UploadedFile) : Bool := f.name != ""

/-- The HTTP outcomes of `FileViewSet.create` (views.py lines 71-120). -/
inductive UploadResponse where
  | created (record : FileRec) (isDuplicate : Bool)
  | badRequest (error : String)
  | serverError (error : String)
deriving Repr, DecidableEq

/-- Whether a response is the 201 success case. -/
def UploadResponse.isCreated : UploadResponse → Bool
  | .created _ _ => true
  | _ => false

/-- Embeds `FileViewSet.create` (views.py lines 71-120): missing/falsy file field
gives a plain 400, an oversized file a plain 400, otherwise the
deduplicating upload runs and returns 201.  There is no error taxonomy:
any exception from the service would surface as the generic 500 branch. -/
def viewCreate (H : Content → String) (max_size : Nat)
    (file_obj : Option UploadedFile) (s : Store) : UploadResponse × Store :=
  match file_obj with
  | none => (UploadResponse.badRequest "No file provided", s)
  | some f =>
    if !f.isTruthy then (UploadResponse.badRequest "No file provided", s)
    else if f.bytes.length > max_size then
      (UploadResponse.badRequest "File size exceeds maximum allowed", s)
    else
      let ct := f.content_type.getD ""
      let file_type := if ct == "" then "application/octet-stream" else ct
      let r := uploadFile H f.bytes f.name file_type s
      (UploadResponse.created r.1.1 r.1.2, r.2)

/-- Runs `upload_file` on a content stream that may raise while being read
(deduplication.py line 73 calls `compute_hash`, whose `read` may raise):
the exception propagates out of `transaction.atomic()`, the transaction
rolls back, and no store mutation survives — so an error result carries
no store at all and the caller keeps the old one. -/
def uploadFileFromStream (H : Content → String)
    (stream : Except String Content) (original_filename file_type : String)
    (s : Store) : Except String ((FileRec × Bool) × Store) :=
  match stream with
  | Except.error e => Except.error e
  | Except.ok c => Except.ok (uploadFile H c original_filename file_type s)

/-!
## Filesystem model for directory reclamation

Paths are lists of components (`os.path.dirname` drops the last
component; on the slash-joined CAS paths the caller builds,
`str.startswith(cas_root)` coincides with component-list prefix).
An `err` oracle says on which directories `os.listdir`/`os.rmdir`
raise `OSError` (permissions etc.). -/

/-- A filesystem path, as its list of components. -/
abbrev FsPath := List String

/-- Directories and files currently existing on disk. -/
structure Fs where
  dirs : List FsPath
  fsfiles : List FsPath
deriving Repr, DecidableEq

/-- Embeds `not os.listdir(d)`: no directory or file has `d` as its parent. -/
def isEmptyDir (fs : Fs) (d : FsPath) : Bool :=
  fs.dirs.all (fun p => !(p.dropLast == d && !(p == d))) &&
  fs.fsfiles.all (fun p => !(p.dropLast == d))

/-- Embeds `os.rmdir d`: remove the directory entry. -/
def rmdir (fs : Fs) (d : FsPath) : Fs :=
  { fs with dirs := fs.dirs.filter (fun p => !(p == d)) }

/-- The `while` loop of `_cleanup_empty_directories` (deduplication.py
lines 141-151): climb from `parentDir` toward `cas_root`, removing each
currently empty directory, stopping at the root boundary, at the first
non-empty directory, or at the first `OSError` — always returning
normally. -/
def cleanupLoop (err : FsPath → Bool) (cas_root : FsPath)
    (parentDir : FsPath) (fs : Fs) : Fs :=
  if h : parentDir ≠ [] ∧ parentDir ≠ cas_root ∧ cas_root.isPrefixOf parentDir then
    if err parentDir then fs
    else if parentDir ∈ fs.dirs ∧ isEmptyDir fs parentDir then
      cleanupLoop err cas_root parentDir.dropLast (rmdir fs parentDir)
    else fs
  else fs
termination_by parentDir.length
decreasing_by
  have hne : parentDir ≠ [] := h.1
  have h1 : (List.dropLast parentDir).length = List.length parentDir - 1 :=
    List.length_dropLast parentDir
  have h2 : 0 < List.length parentDir := List.length_pos.mpr hne
  omega

/-- Embeds `DeduplicationService._cleanup_empty_directories` (deduplication.py
lines 124-151): start from the deleted file's parent directory. -/
def cleanupEmptyDirectories (err : FsPath → Bool) (cas_root : FsPath)
    (file_path : FsPath) (fs : Fs) : Fs :=
  cleanupLoop err cas_root file_path.dropLast fs

/-!
## Interleaved model of the reference-count increment

`transaction.atomic()` demarcates a database transaction but the code
takes no row lock (`select_for_update` appears nowhere), so under
concurrent callers the database statements of two transactions on the
same row may interleave (read-committed behaviour).  A duplicate upload
touches the shared row with exactly two statements
(deduplication.py lines 76-81):

* *read*: `FileContent.objects.filter(hash=h).first()` loads
  `reference_count` into the Python object;
* *write*: `reference_count += 1; save(update_fields=['reference_count'])`
  stores the absolute value `read + 1` back.

A schedule is a list of (transaction index, action). -/

/-- A database statement of the increment transaction. -/
inductive IncAction where
  | readCount
  | writeCount
deriving Repr, DecidableEq

/-- One scheduler step: the shared row value and each transaction's
in-memory copy of `reference_count` (none before its read).  A write
before the transaction's read is not a real schedule and is a no-op. -/
def applyIncStep (st : Int × (Nat → Option Int)) (step : Nat × IncAction) :
    Int × (Nat → Option Int) :=
  match step.2 with
  | IncAction.readCount => (st.1, Function.update st.2 step.1 (some st.1))
  | IncAction.writeCount =>
    match st.2 step.1 with
    | some v => (v + 1, st.2)
    | none => st

/-- Run a schedule from a shared `reference_count` of `rc0`; the result
is the committed row value. -/
def runIncSchedule (sched : List (Nat × IncAction)) (rc0 : Int) : Int :=
  (sched.foldl applyIncStep (rc0, fun _ => none)).1

/-- The serial schedule: `k` increment transactions one after another. -/
def serialIncSchedule (k : Nat) : List (Nat × IncAction) :=
  (List.range k).flatMap
    (fun i => [(i, IncAction.readCount), (i, IncAction.writeCount)])

/-- Two concurrent duplicate uploads whose reads both happen before
either write. -/
def lostUpdateSchedule : List (Nat × IncAction) :=
  [(0, IncAction.readCount), (1, IncAction.readCount),
   (0, IncAction.writeCount), (1, IncAction.writeCount)]

/-!
## Invariant machinery -/

/-- Number of live `File` rows referencing the content with hash `h`. -/
def refsTo (s : Store) (h : String) : Nat :=
  s.files.countP (fun f => f.contentHash == h)

/-- The store invariant: content hashes are unique (`hash` is a primary
key), file ids are unique and below the counter, every refcount equals
the number of live referencing `File` rows and is at least 1, and every
`File` row's foreign key resolves (`on_delete=PROTECT`). -/
def Inv (s : Store) : Prop :=
  (s.contents.map ContentRec.hash).Nodup ∧
  (s.files.map FileRec.id).Nodup ∧
  (∀ f ∈ s.files, f.id < s.nextId) ∧
  (∀ fc ∈ s.contents,
      fc.reference_count = (refsTo s fc.hash : Int) ∧ 1 ≤ fc.reference_count) ∧
  (∀ f ∈ s.files, ∃ fc ∈ s.contents, fc.hash = f.contentHash)

/-- States reachable from the empty store by upload and delete calls. -/
inductive Reachable : Store → Prop where
  | empty : Reachable emptyStore
  | upload (H : Content → String) (c : Content) (fn ft : String) {s : Store} :
      Reachable s → Reachable (uploadFile H c fn ft s).2
  | delete (fid : Nat) {s : Store} :
      Reachable s → Reachable (deleteFile fid s).2

/-- The SHA-256 hex digest of the empty byte string, used as a concrete
digest value in witnesses. -/
def demoHash : String :=
  "e3b0c44298fc1c149afbf4c8996fb92427ae41e4649b934ca495991b7852b855"

/-- A concrete stand-in digest function for witnesses: constant, which is
what SHA-256 gives on repeated uploads of one fixed content. -/
def demoH : Content → String := fun _ => demoHash

/-!
## Helper lemmas -/

theorem foldl_add_eq_sum (l : List ContentRec) (a : Int) :
    l.foldl (fun acc fc => acc + (fc.size : Int) * fc.reference_count) a
      = a + (l.map (fun fc => (fc.size : Int) * fc.reference_count)).sum := by
  induction l generalizing a with
  | nil => simp
  | cons x xs ih => simp only [List.foldl_cons, List.map_cons, List.sum_cons, ih]; ring

theorem cast_size_sum (l : List ContentRec) :
    (((l.map (fun fc => fc.size)).sum : Nat) : Int)
      = (l.map (fun fc => (fc.size : Int))).sum := by
  rw [Nat.cast_list_sum, List.map_map]; rfl

theorem saved_eq_weighted_sum (l : List ContentRec) :
    (l.map (fun fc => (fc.size : Int) * fc.reference_count)).sum
        - (((l.map (fun fc => fc.size)).sum : Nat) : Int)
      = (l.map (fun fc => (fc.reference_count - 1) * (fc.size : Int))).sum := by
  induction l with
  | nil => simp
  | cons x xs ih =>
      rw [cast_size_sum] at ih ⊢
      simp only [List.map_cons, List.sum_cons]
      have : ∀ a b c d : Int, a + b - (c + d) = (a - c) + (b - d) := by intro a b c d; ring
      rw [this, ih]
      ring_nf

theorem countP_split {α : Type} (l : List α) (p r : α → Bool) :
    l.countP (fun a => p a && r a) + l.countP (fun a => p a && !(r a))
      = l.countP p := by
  induction l with
  | nil => rfl
  | cons x xs ih =>
      rw [List.countP_cons, List.countP_cons, List.countP_cons]
      cases hp : p x <;> cases hr : r x <;> simp [hp, hr] <;> omega

/-- In a list of `File` rows with pairwise distinct ids that contains
`fr`, exactly the occurrence of `fr` has id `fr.id`. -/
theorem countP_and_id_eq (l : List FileRec) (fr : FileRec)
    (hnodup : (l.map FileRec.id).Nodup) (hmem : fr ∈ l) (p : FileRec → Bool) :
    l.countP (fun f => p f && (f.id == fr.id)) = if p fr then 1 else 0 := by
  induction l with
  | nil => cases hmem
  | cons x xs ih =>
      rw [List.countP_cons]
      rw [List.map_cons, List.nodup_cons] at hnodup
      rcases List.mem_cons.mp hmem with rfl | hmem2
      · have hz : xs.countP (fun f => p f && (f.id == fr.id)) = 0 := by
          refine List.countP_eq_zero.mpr (fun g hg => ?_)
          have : g.id ≠ fr.id := fun he => hnodup.1 (he ▸ List.mem_map_of_mem FileRec.id hg)
          simp [this]
        rw [hz]
        cases hp : p fr <;> simp [hp]
      · have hx : x.id ≠ fr.id := by
          intro he
          exact hnodup.1 (he ▸ List.mem_map_of_mem FileRec.id hmem2)
        rw [ih hnodup.2 hmem2]
        simp [hx]

/-- A model of `QuerySet.filter(hash=h).first()` on a table whose matching row is
unique returns that row. -/
theorem find?_eq_of_unique (l : List ContentRec) (h : String) (fc : ContentRec)
    (hmem : fc ∈ l) (hh : fc.hash = h)
    (huniq : ∀ g ∈ l, g.hash = h → g = fc) :
    l.find? (fun g => g.hash == h) = some fc := by
  induction l with
  | nil => cases hmem
  | cons x xs ih =>
      by_cases hx : x.hash = h
      · have hxfc : x = fc := huniq x (List.mem_cons_self x xs) hx
        subst hxfc
        simp [List.find?_cons, hx]
      · have hxb : (x.hash == h) = false := by simp [hx]
        rw [List.find?_cons, hxb]
        have hfc2 : fc ∈ xs := by
          rcases List.mem_cons.mp hmem with rfl | h2
          · exact absurd hh hx
          · exact h2
        exact ih hfc2 (fun g hg => huniq g (List.mem_cons_of_mem x hg))

/-!
## Invariant preservation -/

theorem beq_hash_false {a : String} {b : String} (h : a ≠ b) : (a == b) = false := by
  simp [h]

theorem inv_emptyStore : Inv emptyStore := by
  refine ⟨?_, ?_, ?_, ?_, ?_⟩ <;> simp [emptyStore]

/-- A row update keyed on the primary key `hash` does not change the
column of hashes, provided the new row keeps the key. -/
theorem map_hash_update (l : List ContentRec) (hc : String) (e2 : ContentRec)
    (he : e2.hash = hc) :
    List.map ContentRec.hash (l.map (fun fc => if fc.hash == hc then e2 else fc))
      = List.map ContentRec.hash l := by
  rw [List.map_map]
  refine List.map_congr_left (fun a ha => ?_)
  by_cases hah : a.hash = hc <;> simp [Function.comp, hah, he]

/-- Updating the refcount column keyed on `hash` preserves the hash
column. -/
theorem map_hash_update_rc (l : List ContentRec) (hc : String) (v : Int) :
    List.map ContentRec.hash (l.map (fun fc =>
      if fc.hash == hc then { fc with reference_count := v } else fc))
      = List.map ContentRec.hash l := by
  rw [List.map_map]
  refine List.map_congr_left (fun a ha => ?_)
  by_cases hah : a.hash = hc <;> simp [Function.comp, hah]

/-- Rows after a keyed update: the new row (when the key was present) or
an unchanged row with a different key. -/
theorem mem_map_update {l : List ContentRec} {hc : String} {e2 g : ContentRec}
    (hg : g ∈ l.map (fun fc => if fc.hash == hc then e2 else fc)) :
    (g = e2 ∧ ∃ a ∈ l, a.hash = hc) ∨ (g ∈ l ∧ g.hash ≠ hc) := by
  obtain ⟨a, ha, rfl⟩ := List.mem_map.mp hg
  by_cases hah : a.hash = hc
  · left
    exact ⟨by simp [hah], a, ha, hah⟩
  · right
    have hi : (if a.hash == hc then e2 else a) = a := by simp [hah]
    rw [hi]
    exact ⟨ha, hah⟩

theorem inv_upload (H : Content → String) (c : Content) (fn ft : String)
    (s : Store) (hs : Inv s) : Inv (uploadFile H c fn ft s).2 := by
  obtain ⟨hC, hF, hlt, hrc, hfk⟩ := hs
  have hidfresh : s.nextId ∉ s.files.map FileRec.id := by
    intro hmem
    obtain ⟨f, hf, hfe⟩ := List.mem_map.mp hmem
    exact absurd (hfe ▸ hlt f hf) (lt_irrefl _)
  cases hfind : s.contents.find? (fun fc => fc.hash == H c) with
  | none =>
      have hnone : ∀ fc ∈ s.contents, fc.hash ≠ H c := by
        intro fc hfc
        have := List.find?_eq_none.mp hfind fc hfc
        simpa using this
      have href0 : refsTo s (H c) = 0 := by
        refine List.countP_eq_zero.mpr (fun f hf => ?_)
        obtain ⟨fc, hfc, hfc2⟩ := hfk f hf
        have hne : f.contentHash ≠ H c := fun he => hnone fc hfc (hfc2.trans he)
        simpa using hne
      refine ⟨?_, ?_, ?_, ?_, ?_⟩ <;> simp only [uploadFile, hfind]
      · simp only [List.map_cons, List.nodup_cons]
        refine ⟨?_, hC⟩
        intro hmem
        obtain ⟨fc, hfc, hfe⟩ := List.mem_map.mp hmem
        exact hnone fc hfc hfe
      · simp only [List.map_cons, List.nodup_cons]
        exact ⟨hidfresh, hF⟩
      · intro f hf
        rcases List.mem_cons.mp hf with rfl | hf2
        · exact Nat.lt_succ_self _
        · exact Nat.lt_succ_of_lt (hlt f hf2)
      · intro fc hfc
        simp only [refsTo] at href0
        rcases List.mem_cons.mp hfc with rfl | hfc2
        · constructor
          · show (1 : Int) = _
            simp [refsTo, List.countP_cons, href0]
          · exact le_refl 1
        · have hne : (H c == fc.hash) = false :=
            beq_hash_false (fun he => hnone fc hfc2 he.symm)
          have hthis := hrc fc hfc2
          constructor
          · show fc.reference_count = _
            simp only [refsTo, List.countP_cons, hne, if_false]
            simpa [refsTo] using hthis.1
          · exact hthis.2
      · intro f hf
        rcases List.mem_cons.mp hf with rfl | hf2
        · exact ⟨_, List.mem_cons_self _ _, rfl⟩
        · obtain ⟨fc, hfc, hfe⟩ := hfk f hf2
          exact ⟨fc, List.mem_cons_of_mem _ hfc, hfe⟩
  | some existing =>
      have hfcmem : existing ∈ s.contents := List.mem_of_find?_eq_some hfind
      have hfchash : existing.hash = H c := by
        have := List.find?_some hfind
        simpa using this
      have huniq : ∀ g ∈ s.contents, g.hash = H c → g = existing := by
        intro g hg hgh
        exact List.inj_on_of_nodup_map hC hg hfcmem (hgh.trans hfchash.symm)
      have hupd : ∀ a : ContentRec,
          (if (a.hash == H c) = true then
            { existing with reference_count := existing.reference_count + 1 } else a).hash
          = a.hash := by
        intro a
        by_cases hah : a.hash = H c <;> simp [hah, hfchash]
      have he2hash : ({ existing with
          reference_count := existing.reference_count + 1 } : ContentRec).hash = H c :=
        hfchash
      refine ⟨?_, ?_, ?_, ?_, ?_⟩ <;> simp only [uploadFile, hfind]
      · show (List.map ContentRec.hash (s.contents.map _)).Nodup
        rw [map_hash_update _ _ _ he2hash]
        exact hC
      · simp only [List.map_cons, List.nodup_cons]
        exact ⟨hidfresh, hF⟩
      · intro f hf
        rcases List.mem_cons.mp hf with rfl | hf2
        · exact Nat.lt_succ_self _
        · exact Nat.lt_succ_of_lt (hlt f hf2)
      · intro g hg
        rcases mem_map_update hg with ⟨rfl, -⟩ | ⟨hg2, hgne⟩
        · have hrcE := hrc existing hfcmem
          constructor
          · show existing.reference_count + 1 = _
            have hbeq : (H c == ({ existing with
                reference_count := existing.reference_count + 1 } : ContentRec).hash)
                = true := by simp [hfchash]
            simp only [refsTo, List.countP_cons, hbeq, if_true]
            have h1 : existing.reference_count = (refsTo s existing.hash : Int) := hrcE.1
            simp only [refsTo] at h1
            rw [show ({ existing with
                reference_count := existing.reference_count + 1 } : ContentRec).hash
              = existing.hash from rfl]
            push_cast
            omega
          · show 1 ≤ existing.reference_count + 1
            have h2 := hrcE.2
            omega
        · have hrcG := hrc g hg2
          constructor
          · show g.reference_count = _
            have hbeq : (H c == g.hash) = false :=
              beq_hash_false (fun he => hgne he.symm)
            simp only [refsTo, List.countP_cons, hbeq, if_false]
            simpa [refsTo] using hrcG.1
          · exact hrcG.2
      · intro f hf
        rcases List.mem_cons.mp hf with rfl | hf2
        · refine ⟨{ existing with
            reference_count := existing.reference_count + 1 }, ?_, he2hash⟩
          have hm := List.mem_map_of_mem
            (fun fc => if fc.hash == H c then
              { existing with reference_count := existing.reference_count + 1 }
              else fc) hfcmem
          simpa [hfchash] using hm
        · obtain ⟨fc, hfc, hfe⟩ := hfk f hf2
          refine ⟨(if fc.hash == H c then
              { existing with reference_count := existing.reference_count + 1 }
              else fc), List.mem_map_of_mem _ hfc, ?_⟩
          rw [hupd fc]
          exact hfe

/-- Deleting the one row with id `fr.id` lowers every row count by
exactly that row's contribution. -/
theorem countP_filter_erase_id (l : List FileRec) (fr : FileRec)
    (hnodup : (l.map FileRec.id).Nodup) (hmem : fr ∈ l) (p : FileRec → Bool) :
    (l.filter (fun f => !(f.id == fr.id))).countP p + (if p fr then 1 else 0)
      = l.countP p := by
  induction l with
  | nil => cases hmem
  | cons x xs ih =>
      rw [List.map_cons, List.nodup_cons] at hnodup
      rcases List.mem_cons.mp hmem with rfl | hmem2
      · have hxs : xs.filter (fun f => !(f.id == fr.id)) = xs := by
          refine List.filter_eq_self.mpr (fun g hg => ?_)
          have hne : g.id ≠ fr.id :=
            fun he => hnodup.1 (he ▸ List.mem_map_of_mem FileRec.id hg)
          simp [hne]
        simp [List.filter_cons, hxs, List.countP_cons]
      · have hx : x.id ≠ fr.id :=
          fun he => hnodup.1 (he ▸ List.mem_map_of_mem FileRec.id hmem2)
        have hih := ih hnodup.2 hmem2
        simp only [List.filter_cons]
        rw [show (!(x.id == fr.id)) = true by simp [hx]]
        simp only [if_true, List.countP_cons]
        omega

theorem inv_delete (fid : Nat) (s : Store) (hs : Inv s) :
    Inv (deleteFile fid s).2 := by
  obtain ⟨hC, hF, hlt, hrc, hfk⟩ := hs
  cases hffind : s.files.find? (fun f => f.id == fid) with
  | none =>
      simp only [deleteFile, hffind]
      exact ⟨hC, hF, hlt, hrc, hfk⟩
  | some fr =>
    cases hcfind : s.contents.find? (fun fc => fc.hash == fr.contentHash) with
    | none =>
        simp only [deleteFile, hffind, hcfind]
        exact ⟨hC, hF, hlt, hrc, hfk⟩
    | some content =>
        have hfrmem : fr ∈ s.files := List.mem_of_find?_eq_some hffind
        have hfrid : fr.id = fid := by
          have := List.find?_some hffind
          simpa using this
        subst hfrid
        have hcmem : content ∈ s.contents := List.mem_of_find?_eq_some hcfind
        have hchash : content.hash = fr.contentHash := by
          have := List.find?_some hcfind
          simpa using this
        have hcntF : ∀ p : FileRec → Bool,
            (s.files.filter (fun f => !(f.id == fr.id))).countP p
                + (if p fr then 1 else 0) = s.files.countP p :=
          countP_filter_erase_id s.files fr hF hfrmem
        have hidsub : ((s.files.filter (fun f => !(f.id == fr.id))).map FileRec.id).Nodup :=
          ((List.filter_sublist s.files).map FileRec.id).nodup hF
        have huniqC : ∀ g ∈ s.contents, g.hash = content.hash → g = content :=
          fun g hg hgh => List.inj_on_of_nodup_map hC hg hcmem hgh
        have hrcC := hrc content hcmem
        by_cases hz : content.reference_count - 1 = 0
        · -- last reference: FileContent row and blob are removed
          refine ⟨?_, ?_, ?_, ?_, ?_⟩ <;>
            simp only [deleteFile, hffind, hcfind, hz, eq_self_iff_true, if_true]
          · exact ((List.filter_sublist s.contents).map ContentRec.hash).nodup hC
          · exact hidsub
          · intro f hf
            exact hlt f (List.mem_of_mem_filter hf)
          · intro g hg
            obtain ⟨hg2, hgb⟩ := List.mem_filter.mp hg
            have hgne : g.hash ≠ content.hash := by simpa using hgb
            have hrcG := hrc g hg2
            refine ⟨?_, hrcG.2⟩
            have hbeq : (fr.contentHash == g.hash) = false :=
              beq_hash_false (fun he => hgne (hchash.trans he).symm)
            have hc2 := hcntF (fun f => f.contentHash == g.hash)
            simp only [hbeq, Bool.false_eq_true, if_false, Nat.add_zero] at hc2
            show g.reference_count = _
            simp only [refsTo]
            rw [hc2]
            simpa [refsTo] using hrcG.1
          · intro f hf
            have hf2 : f ∈ s.files := List.mem_of_mem_filter hf
            obtain ⟨fc, hfc, hfe⟩ := hfk f hf2
            by_cases hfch : fc.hash = content.hash
            · exfalso
              have hfcc : fc = content := huniqC fc hfc hfch
              have hrefs1 : refsTo s content.hash = 1 := by
                have h1 := hrcC.1
                have h2 : content.reference_count = 1 := by omega
                rw [h2] at h1
                exact_mod_cast h1.symm
              have hpfr : (fr.contentHash == content.hash) = true := by
                simp [hchash]
              have hc2 := hcntF (fun f => f.contentHash == content.hash)
              simp only [hpfr, if_true] at hc2
              have hzero :
                  (s.files.filter (fun f => !(f.id == fr.id))).countP
                    (fun f => f.contentHash == content.hash) = 0 := by
                have := hrefs1
                simp only [refsTo] at this
                omega
              have hfpos : 0 <
                  (s.files.filter (fun f => !(f.id == fr.id))).countP
                    (fun f => f.contentHash == content.hash) := by
                refine List.countP_pos.mpr ⟨f, hf, ?_⟩
                have : f.contentHash = content.hash := by
                  rw [← hfe, hfcc]
                simp [this]
              omega
            · refine ⟨fc, ?_, hfe⟩
              refine List.mem_filter.mpr ⟨hfc, ?_⟩
              simp [hfch]
        · -- other references remain: only the refcount column changes
          have hupd2 : ∀ a : ContentRec,
              (if (a.hash == content.hash) = true then
                { a with reference_count := content.reference_count - 1 }
                else a).hash = a.hash := by
            intro a
            by_cases hah : a.hash = content.hash <;> simp [hah]
          refine ⟨?_, ?_, ?_, ?_, ?_⟩ <;>
            simp only [deleteFile, hffind, hcfind, hz, if_false]
          · show (List.map ContentRec.hash (s.contents.map _)).Nodup
            rw [map_hash_update_rc]
            exact hC
          · exact hidsub
          · intro f hf
            exact hlt f (List.mem_of_mem_filter hf)
          · intro g hg
            obtain ⟨a, ha, rfl⟩ := List.mem_map.mp hg
            by_cases hah : a.hash = content.hash
            · have hac : a = content := huniqC a ha hah
              subst hac
              rw [show (a.hash == a.hash) = true by simp]
              simp only [if_true]
              have hpfr : (fr.contentHash ==
                  ({ a with reference_count := a.reference_count - 1 } : ContentRec).hash)
                  = true := by
                show (fr.contentHash == a.hash) = true
                simp [← hchash]
              constructor
              · show a.reference_count - 1 = _
                simp only [refsTo]
                have hc2 := hcntF (fun f => f.contentHash ==
                  ({ a with reference_count := a.reference_count - 1 } : ContentRec).hash)
                simp only [hpfr, if_true] at hc2
                have h1 := hrcC.1
                simp only [refsTo] at h1
                show a.reference_count - 1 =
                  ((s.files.filter (fun f => !(f.id == fr.id))).countP
                    (fun f => f.contentHash == a.hash) : Int)
                omega
              · show 1 ≤ a.reference_count - 1
                have h1 := hrcC.1
                have h2 := hrcC.2
                omega
            · have hib : (a.hash == content.hash) = false := beq_hash_false hah
              rw [hib]
              simp only [Bool.false_eq_true, if_false]
              have hrcA := hrc a ha
              refine ⟨?_, hrcA.2⟩
              have hbeq : (fr.contentHash == a.hash) = false :=
                beq_hash_false (fun he => hah (hchash.trans he).symm)
              have hc2 := hcntF (fun f => f.contentHash == a.hash)
              simp only [hbeq, Bool.false_eq_true, if_false, Nat.add_zero] at hc2
              show a.reference_count = _
              simp only [refsTo]
              rw [hc2]
              simpa [refsTo] using hrcA.1
          · intro f hf
            have hf2 : f ∈ s.files := List.mem_of_mem_filter hf
            obtain ⟨fc, hfc, hfe⟩ := hfk f hf2
            refine ⟨(if fc.hash == content.hash then
                { fc with reference_count := content.reference_count - 1 }
                else fc), List.mem_map_of_mem _ hfc, ?_⟩
            rw [hupd2 fc]
            exact hfe

/-- Every reachable store satisfies the invariant. -/
theorem inv_reachable (s : Store) (h : Reachable s) : Inv s := by
  induction h with
  | empty => exact inv_emptyStore
  | upload H c fn ft hr ih => exact inv_upload H c fn ft _ ih
  | delete fid hr ih => exact inv_delete fid _ ih

/-!
## Claim theorems -/

/-- The effect of one upload of new content (the `find? = none` branch),
with the created rows made explicit. -/
theorem upload_new_effect (H : Content → String) (c : Content)
    (fn ft : String) (s : Store)
    (hfind : s.contents.find? (fun g => g.hash == H c) = none) :
    uploadFile H c fn ft s =
      (({ id := s.nextId, original_filename := fn, file_type := ft,
          uploaded_at := s.clock, contentHash := H c }, false),
       { s with
          contents := { hash := H c,
                        file_path := content_addressable_path (H c)
                          (if fileExt fn == "" then H c else H c ++ "." ++ fileExt fn),
                        size := c.length, reference_count := 1,
                        created_at := s.clock } :: s.contents,
          blobs := (content_addressable_path (H c)
              (if fileExt fn == "" then H c else H c ++ "." ++ fileExt fn),
            c) :: s.blobs,
          files := { id := s.nextId, original_filename := fn, file_type := ft,
                     uploaded_at := s.clock, contentHash := H c } :: s.files,
          nextId := s.nextId + 1, clock := s.clock + 1 }) := by
  simp [uploadFile, hfind]

/-- The effect of one upload of already-stored content (the duplicate
branch). -/
theorem upload_dup_effect (H : Content → String) (c : Content)
    (fn ft : String) (s : Store) (fc : ContentRec)
    (hfind : s.contents.find? (fun g => g.hash == H c) = some fc) :
    uploadFile H c fn ft s =
      (({ id := s.nextId, original_filename := fn, file_type := ft,
          uploaded_at := s.clock, contentHash := H c }, true),
       { s with
          contents := s.contents.map (fun g =>
            if g.hash == H c then
              { fc with reference_count := fc.reference_count + 1 } else g),
          files := { id := s.nextId, original_filename := fn, file_type := ft,
                     uploaded_at := s.clock, contentHash := H c } :: s.files,
          nextId := s.nextId + 1, clock := s.clock + 1 }) := by
  simp [uploadFile, hfind]

/-- Iterating duplicate uploads: each pass only bumps the unique matching
row's refcount, appends one referencing `File` row, and writes no bytes. -/
theorem uploadN_dups (H : Content → String) (c : Content)
    (metas : List (String × String)) (t : Store) (fc : ContentRec)
    (hmem : fc ∈ t.contents) (hh : fc.hash = H c)
    (huniq : ∀ g ∈ t.contents, g.hash = H c → g = fc) :
    (uploadN H c metas t).1 = List.replicate metas.length true ∧
    (∃ fc2 ∈ (uploadN H c metas t).2.contents,
        fc2.hash = H c ∧
        fc2.reference_count = fc.reference_count + (metas.length : Int) ∧
        fc2.file_path = fc.file_path ∧ fc2.size = fc.size ∧
        fc2.created_at = fc.created_at ∧
        (∀ g ∈ (uploadN H c metas t).2.contents, g.hash = H c → g = fc2)) ∧
    (uploadN H c metas t).2.blobs = t.blobs ∧
    refsTo (uploadN H c metas t).2 (H c) = refsTo t (H c) + metas.length ∧
    (uploadN H c metas t).2.files.length = t.files.length + metas.length ∧
    (uploadN H c metas t).2.contents.length = t.contents.length := by
  induction metas generalizing t fc with
  | nil =>
      exact ⟨rfl, ⟨fc, hmem, hh, by simp, rfl, rfl, rfl, huniq⟩, rfl,
        by simp [uploadN], by simp [uploadN], rfl⟩
  | cons m rest ih =>
      obtain ⟨fn, ft⟩ := m
      have hfind : t.contents.find? (fun g => g.hash == H c) = some fc :=
        find?_eq_of_unique t.contents (H c) fc hmem hh huniq
      have hstep := upload_dup_effect H c fn ft t fc hfind
      have hun : uploadN H c ((fn, ft) :: rest) t
          = ((uploadFile H c fn ft t).1.2 :: (uploadN H c rest (uploadFile H c fn ft t).2).1,
             (uploadN H c rest (uploadFile H c fn ft t).2).2) := rfl
      rw [hun, hstep]
      set fc2 : ContentRec :=
        { fc with reference_count := fc.reference_count + 1 } with hfc2
      set t1 : Store :=
        { t with
          contents := t.contents.map (fun g => if g.hash == H c then fc2 else g),
          files := { id := t.nextId, original_filename := fn, file_type := ft,
                     uploaded_at := t.clock, contentHash := H c } :: t.files,
          nextId := t.nextId + 1, clock := t.clock + 1 } with ht1
      have hmem1 : fc2 ∈ t1.contents := by
        have hm := List.mem_map_of_mem
          (fun g => if g.hash == H c then fc2 else g) hmem
        simpa [ht1, hh] using hm
      have hh1 : fc2.hash = H c := hh
      have huniq1 : ∀ g ∈ t1.contents, g.hash = H c → g = fc2 := by
        intro g hg hgh
        rcases mem_map_update (by simpa [ht1] using hg) with ⟨rfl, -⟩ | ⟨hg2, hgne⟩
        · rfl
        · exact absurd hgh hgne
      obtain ⟨ihflags, ⟨fc3, hfc3mem, hfc3h, hfc3rc, hfc3p, hfc3s, hfc3c, hfc3u⟩,
        ihblobs, ihrefs, ihfiles, ihcontents⟩ := ih t1 fc2 hmem1 hh1 huniq1
      have hreft1 : refsTo t1 (H c) = refsTo t (H c) + 1 := by
        simp [ht1, refsTo, List.countP_cons]
      have hblobt1 : t1.blobs = t.blobs := rfl
      refine ⟨?_, ⟨fc3, hfc3mem, hfc3h, ?_, ?_, ?_, ?_, hfc3u⟩, ?_, ?_, ?_, ?_⟩
      · simp [ihflags, List.replicate_succ]
      · rw [hfc3rc]
        show fc2.reference_count + (rest.length : Int) = _
        rw [hfc2]
        show fc.reference_count + 1 + (rest.length : Int)
          = fc.reference_count + (((fn, ft) :: rest).length : Int)
        push_cast [List.length_cons]
        ring
      · exact hfc3p
      · exact hfc3s
      · exact hfc3c
      · exact ihblobs.trans hblobt1
      · rw [ihrefs, hreft1, List.length_cons]
        omega
      · rw [ihfiles]
        show t1.files.length + rest.length = _
        simp [ht1, List.length_cons]
        omega
      · rw [ihcontents]
        simp [ht1]

/-- C2: the spec requires that under concurrent duplicate uploads of one
hash, `refCount` never diverges from the number of committed calls (no
lost updates).  The code re-reads `reference_count` inside
`transaction.atomic()` but takes no row lock and writes back the
absolute value computed in Python, so the read/write statements of two
transactions may interleave: the schedule read0-read1-write0-write1
starting from `reference_count = 1` commits 2 where the serial execution
of the same two increment transactions commits 3 — a lost update, as the
source's own design note on "read object, mutate field, save" predicts. -/
theorem C2_refcount_lost_update :
    runIncSchedule lostUpdateSchedule 1 = 2 ∧
    runIncSchedule (serialIncSchedule 2) 1 = 3 := by decide

/-- C1: in every store reachable from the empty store by upload and
delete calls, each `FileContent` row's `reference_count` is at least 1
(so it never goes negative, and a row never survives a drop to 0) and
equals the exact number of live `File` rows referencing its hash;
moreover every `File` row's reference resolves, so a `FileContent` row
is never deleted while references remain. -/
theorem C1_refcount_invariant (s : Store) (hreach : Reachable s) :
    (∀ fc ∈ s.contents,
        1 ≤ fc.reference_count ∧
        fc.reference_count = (refsTo s fc.hash : Int)) ∧
    (∀ f ∈ s.files, ∃ fc ∈ s.contents, fc.hash = f.contentHash) := by
  obtain ⟨hC, hF, hlt, hrc, hfk⟩ := inv_reachable s hreach
  exact ⟨fun fc h => ⟨(hrc fc h).2, (hrc fc h).1⟩, hfk⟩

/-- Witness for C1 at a concrete reachable store: one upload, then a
duplicate upload, then one delete. -/
theorem C1_refcount_invariant_witness :
    (∀ fc ∈ (deleteFile 0 (uploadFile demoH [] "b.txt" "text/plain"
        (uploadFile demoH [] "a.txt" "text/plain" emptyStore).2).2).2.contents,
        1 ≤ fc.reference_count ∧
        fc.reference_count
          = (refsTo (deleteFile 0 (uploadFile demoH [] "b.txt" "text/plain"
              (uploadFile demoH [] "a.txt" "text/plain" emptyStore).2).2).2 fc.hash : Int)) ∧
    (∀ f ∈ (deleteFile 0 (uploadFile demoH [] "b.txt" "text/plain"
        (uploadFile demoH [] "a.txt" "text/plain" emptyStore).2).2).2.files,
        ∃ fc ∈ (deleteFile 0 (uploadFile demoH [] "b.txt" "text/plain"
            (uploadFile demoH [] "a.txt" "text/plain" emptyStore).2).2).2.contents,
          fc.hash = f.contentHash) :=
  C1_refcount_invariant _
    (Reachable.delete 0 (Reachable.upload demoH [] "b.txt" "text/plain"
      (Reachable.upload demoH [] "a.txt" "text/plain" Reachable.empty)))

/-- C3: starting from a store with no record of the content, uploading
identical content N ≥ 1 times under arbitrary filenames and MIME types
yields exactly one `FileContent` row for that hash with
`reference_count = N` and exactly N referencing `File` rows; the first
call reports `is_duplicate = false`, every later call `true`, and only
the first call writes physical bytes (exactly one new blob). -/
theorem C3_upload_identical_content_n_times (H : Content → String)
    (c : Content) (metas : List (String × String)) (s : Store)
    (hnofc : ∀ fc ∈ s.contents, fc.hash ≠ H c)
    (hnof : ∀ f ∈ s.files, f.contentHash ≠ H c)
    (hne : metas ≠ []) :
    (uploadN H c metas s).1 = false :: List.replicate (metas.length - 1) true ∧
    (∃ fc2 ∈ (uploadN H c metas s).2.contents,
        fc2.hash = H c ∧ fc2.reference_count = (metas.length : Int) ∧
        (∀ g ∈ (uploadN H c metas s).2.contents, g.hash = H c → g = fc2)) ∧
    refsTo (uploadN H c metas s).2 (H c) = metas.length ∧
    (uploadN H c metas s).2.contents.length = s.contents.length + 1 ∧
    (uploadN H c metas s).2.files.length = s.files.length + metas.length ∧
    (uploadN H c metas s).2.blobs.length = s.blobs.length + 1 := by
  obtain ⟨⟨fn, ft⟩, rest, rfl⟩ : ∃ m rest, metas = m :: rest := by
    cases metas with
    | nil => exact absurd rfl hne
    | cons a l => exact ⟨a, l, rfl⟩
  have hfind : s.contents.find? (fun g => g.hash == H c) = none :=
    List.find?_eq_none.mpr (fun g hg => by simpa using hnofc g hg)
  have hstep := upload_new_effect H c fn ft s hfind
  have hun : uploadN H c ((fn, ft) :: rest) s
      = ((uploadFile H c fn ft s).1.2
          :: (uploadN H c rest (uploadFile H c fn ft s).2).1,
         (uploadN H c rest (uploadFile H c fn ft s).2).2) := rfl
  rw [hun, hstep]
  set fcN : ContentRec :=
    { hash := H c,
      file_path := content_addressable_path (H c)
        (if fileExt fn == "" then H c else H c ++ "." ++ fileExt fn),
      size := c.length, reference_count := 1, created_at := s.clock } with hfcN
  set t1 : Store :=
    { s with
      contents := fcN :: s.contents,
      blobs := (content_addressable_path (H c)
          (if fileExt fn == "" then H c else H c ++ "." ++ fileExt fn),
        c) :: s.blobs,
      files := { id := s.nextId, original_filename := fn, file_type := ft,
                 uploaded_at := s.clock, contentHash := H c } :: s.files,
      nextId := s.nextId + 1, clock := s.clock + 1 } with ht1
  have hmem1 : fcN ∈ t1.contents := List.mem_cons_self _ _
  have hh1 : fcN.hash = H c := rfl
  have huniq1 : ∀ g ∈ t1.contents, g.hash = H c → g = fcN := by
    intro g hg hgh
    rcases List.mem_cons.mp hg with rfl | hg2
    · rfl
    · exact absurd hgh (hnofc g hg2)
  have hrefs1 : refsTo t1 (H c) = 1 := by
    have h0 : s.files.countP (fun f => f.contentHash == H c) = 0 :=
      List.countP_eq_zero.mpr (fun f hf => by simpa using hnof f hf)
    simp [ht1, refsTo, List.countP_cons, h0]
  obtain ⟨ihflags, ⟨fc3, hfc3mem, hfc3h, hfc3rc, hfc3p, hfc3s, hfc3c, hfc3u⟩,
      ihblobs, ihrefs, ihfiles, ihcontents⟩ :=
    uploadN_dups H c rest t1 fcN hmem1 hh1 huniq1
  refine ⟨?_, ⟨fc3, hfc3mem, hfc3h, ?_, hfc3u⟩, ?_, ?_, ?_, ?_⟩
  · simp [ihflags]
  · rw [hfc3rc]
    show (1 : Int) + (rest.length : Int) = (((fn, ft) :: rest).length : Int)
    push_cast [List.length_cons]
    ring
  · rw [ihrefs, hrefs1, List.length_cons]
    omega
  · rw [ihcontents]
    simp [ht1]
  · rw [ihfiles]
    show t1.files.length + rest.length = s.files.length + ((fn, ft) :: rest).length
    simp [ht1, List.length_cons]
    omega
  · rw [ihblobs]
    simp [ht1]

/-- Witness for C3: the empty content uploaded twice into the empty
store. -/
theorem C3_upload_identical_content_n_times_witness :
    (uploadN demoH [] [("a.txt", "text/plain"), ("b.txt", "text/plain")]
        emptyStore).1 = false :: List.replicate 1 true ∧
    (∃ fc2 ∈ (uploadN demoH [] [("a.txt", "text/plain"), ("b.txt", "text/plain")]
        emptyStore).2.contents,
        fc2.hash = demoH [] ∧ fc2.reference_count = (2 : Int) ∧
        (∀ g ∈ (uploadN demoH [] [("a.txt", "text/plain"), ("b.txt", "text/plain")]
            emptyStore).2.contents, g.hash = demoH [] → g = fc2)) ∧
    refsTo (uploadN demoH [] [("a.txt", "text/plain"), ("b.txt", "text/plain")]
        emptyStore).2 (demoH []) = 2 ∧
    (uploadN demoH [] [("a.txt", "text/plain"), ("b.txt", "text/plain")]
        emptyStore).2.contents.length = 0 + 1 ∧
    (uploadN demoH [] [("a.txt", "text/plain"), ("b.txt", "text/plain")]
        emptyStore).2.files.length = 0 + 2 ∧
    (uploadN demoH [] [("a.txt", "text/plain"), ("b.txt", "text/plain")]
        emptyStore).2.blobs.length = 0 + 1 :=
  C3_upload_identical_content_n_times demoH []
    [("a.txt", "text/plain"), ("b.txt", "text/plain")] emptyStore
    (by simp [emptyStore]) (by simp [emptyStore]) (by decide)

/-- C4: deleting an existing `File` row removes exactly that row and
decrements its content row's refcount by exactly 1 (witnessed on the
count of referencing rows); it returns `physical_deleted = true`,
removes the `FileContent` row and the physical bytes exactly when the
resulting refcount is 0, and otherwise returns `false`, persists the
decremented refcount and leaves the bytes intact. -/
theorem C4_delete_semantics (s : Store) (fid : Nat) (fr : FileRec)
    (hinv : Inv s)
    (hfr : s.files.find? (fun f => f.id == fid) = some fr) :
    ∃ fc ∈ s.contents, fc.hash = fr.contentHash ∧
      (deleteFile fid s).2.files.length + 1 = s.files.length ∧
      refsTo (deleteFile fid s).2 fr.contentHash + 1 = refsTo s fr.contentHash ∧
      (fc.reference_count - 1 = 0 →
        (deleteFile fid s).1 = some true ∧
        (∀ g ∈ (deleteFile fid s).2.contents, g.hash ≠ fc.hash) ∧
        (∀ b ∈ (deleteFile fid s).2.blobs, b.1 ≠ fc.file_path)) ∧
      (fc.reference_count - 1 ≠ 0 →
        (deleteFile fid s).1 = some false ∧
        (∃ g ∈ (deleteFile fid s).2.contents,
            g.hash = fc.hash ∧ g.reference_count = fc.reference_count - 1) ∧
        (deleteFile fid s).2.blobs = s.blobs) := by
  obtain ⟨hC, hF, hlt, hrc, hfk⟩ := hinv
  have hfrmem : fr ∈ s.files := List.mem_of_find?_eq_some hfr
  have hfrid : fr.id = fid := by
    have := List.find?_some hfr
    simpa using this
  subst hfrid
  obtain ⟨fc, hfcmem, hfch⟩ := hfk fr hfrmem
  have huniqC : ∀ g ∈ s.contents, g.hash = fr.contentHash → g = fc :=
    fun g hg hgh => List.inj_on_of_nodup_map hC hg hfcmem (hgh.trans hfch.symm)
  have hcfind : s.contents.find? (fun g => g.hash == fr.contentHash) = some fc :=
    find?_eq_of_unique s.contents fr.contentHash fc hfcmem hfch huniqC
  have hcntF : ∀ p : FileRec → Bool,
      (s.files.filter (fun f => !(f.id == fr.id))).countP p
          + (if p fr then 1 else 0) = s.files.countP p :=
    countP_filter_erase_id s.files fr hF hfrmem
  have hlen := hcntF (fun _ => true)
  simp only [if_true, List.countP_true] at hlen
  have hrefs := hcntF (fun f => f.contentHash == fr.contentHash)
  rw [show (fr.contentHash == fr.contentHash) = true by simp] at hrefs
  simp only [if_true] at hrefs
  refine ⟨fc, hfcmem, hfch, ?_, ?_, ?_, ?_⟩
  · by_cases hz : fc.reference_count - 1 = 0 <;>
      simp only [deleteFile, hfr, hcfind, hz, eq_self_iff_true, if_true, if_false] <;>
      exact hlen
  · by_cases hz : fc.reference_count - 1 = 0 <;>
      simp only [deleteFile, hfr, hcfind, hz, eq_self_iff_true, if_true, if_false] <;>
      · simp only [refsTo]
        exact hrefs
  · intro hz
    simp only [deleteFile, hfr, hcfind, hz, eq_self_iff_true, if_true]
    refine ⟨by simp, ?_, ?_⟩
    · intro g hg
      have := (List.mem_filter.mp hg).2
      simpa using this
    · intro b hb
      have := (List.mem_filter.mp hb).2
      simpa using this
  · intro hz
    simp only [deleteFile, hfr, hcfind, hz, if_false]
    refine ⟨by simp, ?_, by simp⟩
    refine ⟨(if fc.hash == fc.hash then
        { fc with reference_count := fc.reference_count - 1 } else fc),
      List.mem_map_of_mem _ hfcmem, ?_⟩
    rw [show (fc.hash == fc.hash) = true by simp]
    exact ⟨rfl, rfl⟩

set_option maxRecDepth 4096 in
theorem inv_one_upload_demo :
    Inv (uploadFile demoH [] "a.txt" "text/plain" emptyStore).2 :=
  ⟨by decide, by decide, by decide, by decide, by decide⟩

/-- Witness for C4: delete the single file of a one-upload store. -/
theorem C4_delete_semantics_witness :
    ∃ fc ∈ (uploadFile demoH [] "a.txt" "text/plain" emptyStore).2.contents,
      fc.hash = demoHash ∧
      (deleteFile 0 (uploadFile demoH [] "a.txt" "text/plain"
          emptyStore).2).2.files.length + 1
        = (uploadFile demoH [] "a.txt" "text/plain" emptyStore).2.files.length ∧
      refsTo (deleteFile 0 (uploadFile demoH [] "a.txt" "text/plain"
            emptyStore).2).2 demoHash + 1
        = refsTo (uploadFile demoH [] "a.txt" "text/plain" emptyStore).2 demoHash ∧
      (fc.reference_count - 1 = 0 →
        (deleteFile 0 (uploadFile demoH [] "a.txt" "text/plain"
            emptyStore).2).1 = some true ∧
        (∀ g ∈ (deleteFile 0 (uploadFile demoH [] "a.txt" "text/plain"
            emptyStore).2).2.contents, g.hash ≠ fc.hash) ∧
        (∀ b ∈ (deleteFile 0 (uploadFile demoH [] "a.txt" "text/plain"
            emptyStore).2).2.blobs, b.1 ≠ fc.file_path)) ∧
      (fc.reference_count - 1 ≠ 0 →
        (deleteFile 0 (uploadFile demoH [] "a.txt" "text/plain"
            emptyStore).2).1 = some false ∧
        (∃ g ∈ (deleteFile 0 (uploadFile demoH [] "a.txt" "text/plain"
            emptyStore).2).2.contents,
            g.hash = fc.hash ∧ g.reference_count = fc.reference_count - 1) ∧
        (deleteFile 0 (uploadFile demoH [] "a.txt" "text/plain"
            emptyStore).2).2.blobs
          = (uploadFile demoH [] "a.txt" "text/plain" emptyStore).2.blobs) :=
  C4_delete_semantics (uploadFile demoH [] "a.txt" "text/plain" emptyStore).2 0
    { id := 0, original_filename := "a.txt", file_type := "text/plain",
      uploaded_at := 0, contentHash := demoHash }
    inv_one_upload_demo (by decide)

/-- C5: the size pre-filter of upload (deduplication.py line 70) never
affects the result: the hash is computed unconditionally, and upload
with the pre-filter removed returns the same `(FileRecord, isDuplicate)`
pair and the same resulting store on every input. -/
theorem C5_size_prefilter_no_effect (H : Content → String) (c : Content)
    (fn ft : String) (s : Store) :
    uploadFile H c fn ft s = uploadFileNoSizeFilter H c fn ft s := rfl

/-- C6: the metrics operation returns exactly the claimed aggregates:
`totalFiles` = number of FileRecords, `uniqueContents` = number of
ContentRecords, `logicalSize` = Σ sizeBytes·refCount, `physicalSize` =
Σ sizeBytes, `storageSaved` = logicalSize − physicalSize = Σ
(refCount−1)·sizeBytes, and `dedupRatio` = uniqueContents/totalFiles
when totalFiles > 0, else 1. -/
theorem C6_storage_metrics (s : Store) :
    get_storage_metrics s =
      { total_files := s.files.length,
        unique_contents := s.contents.length,
        logical_size :=
          (s.contents.map (fun fc => (fc.size : Int) * fc.reference_count)).sum,
        physical_size := (s.contents.map (fun fc => fc.size)).sum,
        storage_saved :=
          (s.contents.map (fun fc => (fc.size : Int) * fc.reference_count)).sum
            - (((s.contents.map (fun fc => fc.size)).sum : Nat) : Int),
        deduplication_ratio :=
          if 0 < s.files.length then
            (s.contents.length : ℚ) / (s.files.length : ℚ)
          else 1 } ∧
    (s.contents.map (fun fc => (fc.size : Int) * fc.reference_count)).sum
        - (((s.contents.map (fun fc => fc.size)).sum : Nat) : Int)
      = (s.contents.map (fun fc => (fc.reference_count - 1) * (fc.size : Int))).sum := by
  constructor
  · simp only [get_storage_metrics]
    rw [foldl_add_eq_sum]
    simp
  · exact saved_eq_weighted_sum s.contents

/-- C7: path allocation is a pure function of the digest and the
filename's extension: on a 64-character hex digest it yields
`cas/<hash[0:2]>/<hash[2:4]>/<hash>(.ext)?`, the two shard directories
are the first four hex characters split two and two, and filenames with
equal extensions give equal paths. -/
theorem C7_path_allocation (h fn : String) (hlen : h.length = 64)
    (hhex : ∀ ch ∈ h.toList, ch ∈ "0123456789abcdef".toList) :
    content_addressable_path h fn =
      (if fileExt fn == "" then
        "cas/" ++ strSlice h 0 2 ++ "/" ++ strSlice h 2 4 ++ "/" ++ h
      else
        "cas/" ++ strSlice h 0 2 ++ "/" ++ strSlice h 2 4 ++ "/"
          ++ h ++ "." ++ fileExt fn) ∧
    (strSlice h 0 2).length = 2 ∧
    (strSlice h 2 4).length = 2 ∧
    strSlice h 0 2 ++ strSlice h 2 4 = strSlice h 0 4 ∧
    (∀ fn' : String, fileExt fn' = fileExt fn →
        content_addressable_path h fn' = content_addressable_path h fn) := by
  have hdata : h.toList.length = 64 := hlen
  refine ⟨rfl, ?_, ?_, ?_, ?_⟩
  · show ((h.toList.drop 0).take 2).asString.length = 2
    show ((h.toList.drop 0).take 2).length = 2
    simp only [List.drop_zero, List.length_take]
    omega
  · show ((h.toList.drop 2).take 2).asString.length = 2
    show ((h.toList.drop 2).take 2).length = 2
    simp only [List.length_take, List.length_drop]
    omega
  · show ((h.toList.drop 0).take 2).asString ++ ((h.toList.drop 2).take 2).asString
        = ((h.toList.drop 0).take 4).asString
    have : (h.toList.drop 0).take 4
        = (h.toList.drop 0).take 2 ++ ((h.toList.drop 0).drop 2).take 2 := by
      have := List.take_add (h.toList.drop 0) 2 2
      simpa using this
    simp only [List.drop_zero] at this ⊢
    rw [this]
    rfl
  · intro fn' hext
    simp only [content_addressable_path, hext]

/-- C10: a duplicate upload changes only the `reference_count` column of
the existing `FileContent` row — its hash, stored path (hence the leaf
filename with the extension fixed at first upload), size and creation
time are untouched — every other row is untouched, no blob is written,
and the new `File` row points at that same hash; all of this for every
filename and MIME type of the duplicate call. -/
theorem C10_duplicate_upload_frame (H : Content → String) (c : Content)
    (fn ft : String) (s : Store) (fc : ContentRec)
    (hfind : s.contents.find? (fun g => g.hash == H c) = some fc) :
    (uploadFile H c fn ft s).1.2 = true ∧
    (uploadFile H c fn ft s).2.blobs = s.blobs ∧
    (∃ fc2 ∈ (uploadFile H c fn ft s).2.contents,
        fc2.hash = fc.hash ∧ fc2.file_path = fc.file_path ∧
        fc2.size = fc.size ∧ fc2.created_at = fc.created_at ∧
        fc2.reference_count = fc.reference_count + 1) ∧
    (∀ g ∈ s.contents, g.hash ≠ H c →
        g ∈ (uploadFile H c fn ft s).2.contents) ∧
    (uploadFile H c fn ft s).2.contents.length = s.contents.length ∧
    (uploadFile H c fn ft s).1.1.contentHash = H c := by
  have hfchash : fc.hash = H c := by
    have := List.find?_some hfind
    simpa using this
  have hstep := upload_dup_effect H c fn ft s fc hfind
  rw [hstep]
  refine ⟨rfl, rfl, ?_, ?_, by simp, rfl⟩
  · refine ⟨(if fc.hash == H c then
        { fc with reference_count := fc.reference_count + 1 } else fc),
      List.mem_map_of_mem _ (List.mem_of_find?_eq_some hfind), ?_⟩
    rw [show (fc.hash == H c) = true by simp [hfchash]]
    exact ⟨rfl, rfl, rfl, rfl, rfl⟩
  · intro g hg hgne
    have hm := List.mem_map_of_mem
      (fun g => if g.hash == H c then
        { fc with reference_count := fc.reference_count + 1 } else g) hg
    simpa [hgne] using hm

/-- Witness for C10: a duplicate upload, under a different filename and
MIME type, into a one-upload store. -/
theorem C10_duplicate_upload_frame_witness :
    (uploadFile demoH [] "b.md" "text/markdown"
        (uploadFile demoH [] "a.txt" "text/plain" emptyStore).2).1.2 = true ∧
    (uploadFile demoH [] "b.md" "text/markdown"
        (uploadFile demoH [] "a.txt" "text/plain" emptyStore).2).2.blobs
      = (uploadFile demoH [] "a.txt" "text/plain" emptyStore).2.blobs ∧
    (∃ fc2 ∈ (uploadFile demoH [] "b.md" "text/markdown"
        (uploadFile demoH [] "a.txt" "text/plain" emptyStore).2).2.contents,
        fc2.hash = demoHash ∧
        fc2.file_path = "cas/e3/b0/" ++ demoHash ++ ".txt" ∧
        fc2.size = 0 ∧ fc2.created_at = 0 ∧
        fc2.reference_count = (1 : Int) + 1) ∧
    (∀ g ∈ (uploadFile demoH [] "a.txt" "text/plain" emptyStore).2.contents,
        g.hash ≠ demoHash →
        g ∈ (uploadFile demoH [] "b.md" "text/markdown"
          (uploadFile demoH [] "a.txt" "text/plain" emptyStore).2).2.contents) ∧
    (uploadFile demoH [] "b.md" "text/markdown"
        (uploadFile demoH [] "a.txt" "text/plain" emptyStore).2).2.contents.length
      = (uploadFile demoH [] "a.txt" "text/plain" emptyStore).2.contents.length ∧
    (uploadFile demoH [] "b.md" "text/markdown"
        (uploadFile demoH [] "a.txt" "text/plain" emptyStore).2).1.1.contentHash
      = demoHash :=
  C10_duplicate_upload_frame demoH [] "b.md" "text/markdown"
    (uploadFile demoH [] "a.txt" "text/plain" emptyStore).2
    { hash := demoHash, file_path := "cas/e3/b0/" ++ demoHash ++ ".txt",
      size := 0, reference_count := 1, created_at := 0 }
    (by decide)

/-- Witness for C7 at the concrete empty-content digest and a concrete
filename. -/
theorem C7_path_allocation_witness :
    content_addressable_path demoHash "a.txt" =
      (if fileExt "a.txt" == "" then
        "cas/" ++ strSlice demoHash 0 2 ++ "/" ++ strSlice demoHash 2 4
          ++ "/" ++ demoHash
      else
        "cas/" ++ strSlice demoHash 0 2 ++ "/" ++ strSlice demoHash 2 4 ++ "/"
          ++ demoHash ++ "." ++ fileExt "a.txt") ∧
    (strSlice demoHash 0 2).length = 2 ∧
    (strSlice demoHash 2 4).length = 2 ∧
    strSlice demoHash 0 2 ++ strSlice demoHash 2 4 = strSlice demoHash 0 4 ∧
    (∀ fn' : String, fileExt fn' = fileExt "a.txt" →
        content_addressable_path demoHash fn'
          = content_addressable_path demoHash "a.txt") :=
  C7_path_allocation demoHash "a.txt" (by decide) (by decide)

/-- Bool-level emptiness check unpacked: an empty directory has no child
directory and no child file among the current entries. -/
theorem isEmptyDir_spec (fs : Fs) (d : FsPath) (h : isEmptyDir fs d = true) :
    (∀ q ∈ fs.dirs, q.dropLast = d → q = d) ∧
    (∀ q ∈ fs.fsfiles, q.dropLast ≠ d) := by
  simp only [isEmptyDir, Bool.and_eq_true, List.all_eq_true] at h
  constructor
  · intro q hq hqd
    have hb := h.1 q hq
    by_contra hne
    simp [hqd, hne] at hb
  · intro q hq
    have hb := h.2 q hq
    simpa using hb

theorem mem_rmdir {fs : Fs} {x d : FsPath} :
    d ∈ (rmdir fs x).dirs ↔ (d ∈ fs.dirs ∧ d ≠ x) := by
  simp [rmdir, List.mem_filter]

/-- Master specification of the reclamation loop: files are never
touched; directories are only ever removed; and a removed directory is
a non-root directory strictly inside the root, a prefix of (an ancestor
of or equal to) the walked start, it raised no OSError, and every one of
its original child entries was itself removed before it (so it was empty
at removal time) with no child file at all. -/
theorem cleanupLoop_spec (err : FsPath → Bool) (cas_root : FsPath)
    (p : FsPath) (fs : Fs) :
    (cleanupLoop err cas_root p fs).fsfiles = fs.fsfiles ∧
    (∀ d ∈ (cleanupLoop err cas_root p fs).dirs, d ∈ fs.dirs) ∧
    (∀ d ∈ fs.dirs, d ∉ (cleanupLoop err cas_root p fs).dirs →
        d ≠ cas_root ∧ cas_root <+: d ∧ d ≠ [] ∧ d <+: p ∧ err d = false ∧
        (∀ q ∈ fs.dirs, q.dropLast = d →
            q ∉ (cleanupLoop err cas_root p fs).dirs) ∧
        (∀ q ∈ fs.fsfiles, q.dropLast ≠ d)) := by
  induction p, fs using cleanupLoop.induct err cas_root with
  | case1 parentDir fs hg herr =>
      have heq : cleanupLoop err cas_root parentDir fs = fs := by
        rw [cleanupLoop, dif_pos hg, if_pos herr]
      rw [heq]
      exact ⟨rfl, fun d hd => hd, fun d hd hnd => absurd hd hnd⟩
  | case2 parentDir fs hg herr hin ih =>
      have heq : cleanupLoop err cas_root parentDir fs
          = cleanupLoop err cas_root parentDir.dropLast (rmdir fs parentDir) := by
        rw [cleanupLoop, dif_pos hg, if_neg herr, if_pos hin]
      rw [heq]
      obtain ⟨ihfiles, ihsub, ihrem⟩ := ih
      have hpnotin : parentDir ∉
          (cleanupLoop err cas_root parentDir.dropLast (rmdir fs parentDir)).dirs := by
        intro hmem
        have := ihsub parentDir hmem
        rw [mem_rmdir] at this
        exact this.2 rfl
      have hempty := isEmptyDir_spec fs parentDir hin.2
      have hroot : cas_root <+: parentDir := by
        have := hg.2.2
        exact List.isPrefixOf_iff_prefix.mp this
      have herrf : err parentDir = false := by
        simpa using herr
      refine ⟨?_, ?_, ?_⟩
      · rw [ihfiles]
        rfl
      · intro d hd
        have := ihsub d hd
        exact (mem_rmdir.mp this).1
      · intro d hd hnd
        by_cases hdp : d = parentDir
        · subst hdp
          refine ⟨hg.2.1, hroot, hg.1, List.prefix_refl d, herrf, ?_, hempty.2⟩
          intro q hq hqd
          by_cases hqp : q = d
          · subst hqp
            exact hpnotin
          · exact absurd (hempty.1 q hq hqd) hqp
        · have hd2 : d ∈ (rmdir fs parentDir).dirs := mem_rmdir.mpr ⟨hd, hdp⟩
          obtain ⟨h1, h2, h3, h4, h5, h6, h7⟩ := ihrem d hd2 hnd
          refine ⟨h1, h2, h3, h4.trans ( List.dropLast_prefix parentDir), h5, ?_, ?_⟩
          · intro q hq hqd
            by_cases hqp : q = parentDir
            · subst hqp
              exact hpnotin
            · exact h6 q (mem_rmdir.mpr ⟨hq, hqp⟩) hqd
          · exact h7
  | case3 parentDir fs hg herr hin =>
      have heq : cleanupLoop err cas_root parentDir fs = fs := by
        rw [cleanupLoop, dif_pos hg, if_neg herr, if_neg hin]
      rw [heq]
      exact ⟨rfl, fun d hd => hd, fun d hd hnd => absurd hd hnd⟩
  | case4 parentDir fs hg =>
      have heq : cleanupLoop err cas_root parentDir fs = fs := by
        rw [cleanupLoop, dif_neg hg]
      rw [heq]
      exact ⟨rfl, fun d hd => hd, fun d hd hnd => absurd hd hnd⟩

/-- C8: after a physical delete, reclamation walks upward from the
deleted file's parent toward the CAS root: it never touches files, only
removes directories, and every removed directory lies strictly inside
the root (never the root itself or anything outside), is an ancestor of
or equal to the deleted file's parent directory, had no OSError (an
OSError is a normal stop, the walk still returns), had every original
child entry removed before it — i.e. it was empty at removal time — and
had no child file; moreover if the starting parent directory is missing
or not empty, nothing at all is removed. -/
theorem C8_directory_reclamation (err : FsPath → Bool) (cas_root : FsPath)
    (file_path : FsPath) (fs : Fs) :
    (cleanupEmptyDirectories err cas_root file_path fs).fsfiles = fs.fsfiles ∧
    (∀ d ∈ (cleanupEmptyDirectories err cas_root file_path fs).dirs,
        d ∈ fs.dirs) ∧
    (∀ d ∈ fs.dirs,
        d ∉ (cleanupEmptyDirectories err cas_root file_path fs).dirs →
        d ≠ cas_root ∧ cas_root <+: d ∧ d ≠ [] ∧
        d <+: file_path.dropLast ∧ err d = false ∧
        (∀ q ∈ fs.dirs, q.dropLast = d →
            q ∉ (cleanupEmptyDirectories err cas_root file_path fs).dirs) ∧
        (∀ q ∈ fs.fsfiles, q.dropLast ≠ d)) ∧
    (¬(file_path.dropLast ∈ fs.dirs
        ∧ isEmptyDir fs file_path.dropLast = true) →
      cleanupEmptyDirectories err cas_root file_path fs = fs) := by
  have hspec := cleanupLoop_spec err cas_root file_path.dropLast fs
  refine ⟨hspec.1, hspec.2.1, hspec.2.2, ?_⟩
  intro hstop
  show cleanupLoop err cas_root file_path.dropLast fs = fs
  rw [cleanupLoop]
  by_cases hg : file_path.dropLast ≠ [] ∧ file_path.dropLast ≠ cas_root
      ∧ cas_root.isPrefixOf file_path.dropLast
  · rw [dif_pos hg]
    by_cases he : err file_path.dropLast = true
    · rw [if_pos he]
    · rw [if_neg he, if_neg hstop]
  · rw [dif_neg hg]

/-- C9 counterexample: uploading an empty content stream does not fail —
the view accepts it (HTTP 201) and the call creates one FileRecord and
one ContentRecord, contradicting "fails with a typed InputError and no
record is created".  (The repository's own test
`test_upload_empty_files_deduplicate` asserts exactly this success.) -/
theorem C9_counterexample :
    ( (viewCreate demoH 10485760
        (some ⟨"empty1.txt", some "text/plain", []⟩) emptyStore).1.isCreated
        = true) ∧
    (viewCreate demoH 10485760
        (some ⟨"empty1.txt", some "text/plain", []⟩) emptyStore).2.files.length = 1 ∧
    (viewCreate demoH 10485760
        (some ⟨"empty1.txt", some "text/plain", []⟩) emptyStore).2.contents.length
      = 1 := by decide

/-- C9 amended: an empty content stream is accepted like any other
upload (a FileRecord is always created, and a ContentRecord when the
content is new); an *unreadable* stream propagates its (untyped) read
exception out of the transaction, so no store mutation survives. -/
theorem C9_empty_accepted_unreadable_aborts (H : Content → String)
    (fn ft : String) (s : Store) :
    (∀ e : String, uploadFileFromStream H (Except.error e) fn ft s = Except.error e) ∧
    (uploadFile H [] fn ft s).2.files.length = s.files.length + 1 ∧
    ((uploadFile H [] fn ft s).1.2 = false →
        (uploadFile H [] fn ft s).2.contents.length = s.contents.length + 1) := by
  refine ⟨fun e => rfl, ?_, ?_⟩ <;>
    cases hfind : s.contents.find? (fun fc => fc.hash == H []) <;>
      simp [uploadFile, hfind]

end FileHub
